import Mathlib

/-!
Verification of `optuna/samplers/_tpe/parzen_estimator.py`.

The development shallowly embeds the Parzen-estimator core:

* IEEE-style float values that can be NaN or infinite are modelled by the
  type `Fl` (a rational payload plus the three special values); exact real
  arithmetic that the claims reason about is modelled by `ℚ` where the code
  path is algebraic and by `ℝ` where the code applies `log` / `exp` /
  non-integer powers.
* Python exceptions are modelled by the `PyErr` type and fallible code
  returns `Except PyErr _`.
* numpy in-place mutation of a caller-supplied array (through the view
  created by basic slicing) is modelled by explicit state passing:
  `calculate_weights_state` returns the final contents of the
  `predetermined_weights` buffer next to the function result.

Each definition cites the source lines it is translated from.
-/

/-- Float value model: a rational payload (every decimal literal in the
source is an exact rational here) or one of the IEEE special values.
`nan` compares false under `<`, `≤`; sums propagate `nan` and saturate at
the infinities, matching numpy elementwise/reduction semantics. -/
inductive Fl where
  | num : ℚ → Fl
  | nan : Fl
  | inf : Fl
  | ninf : Fl
deriving DecidableEq, Repr

/-- Elementwise `<` of the float model (`np.less`): any comparison with
`nan` is false. -/
def Fl.lt : Fl → Fl → Bool
  | .num a, .num b => decide (a < b)
  | .nan, _ => false
  | _, .nan => false
  | .ninf, .ninf => false
  | .ninf, _ => true
  | _, .ninf => false
  | .inf, .inf => false
  | .inf, _ => false
  | .num _, .inf => true

/-- Elementwise `≤` of the float model: any comparison with `nan` is false. -/
def Fl.le : Fl → Fl → Bool
  | .num a, .num b => decide (a ≤ b)
  | .nan, _ => false
  | _, .nan => false
  | .ninf, _ => true
  | _, .ninf => false
  | _, .inf => true
  | .inf, .num _ => false

/-- IEEE addition on the float model: `nan` is absorbing and the two
infinities annihilate to `nan`. -/
def Fl.add : Fl → Fl → Fl
  | .nan, _ => .nan
  | _, .nan => .nan
  | .inf, .ninf => .nan
  | .ninf, .inf => .nan
  | .inf, _ => .inf
  | _, .inf => .inf
  | .ninf, _ => .ninf
  | _, .ninf => .ninf
  | .num a, .num b => .num (a + b)

/-- IEEE division on the float model.  `ℚ` has a single zero, so the
signed-zero refinements of IEEE are collapsed; no claim depends on them. -/
def Fl.div : Fl → Fl → Fl
  | .nan, _ => .nan
  | _, .nan => .nan
  | .num a, .num b =>
      if b = 0 then (if a = 0 then .nan else if 0 < a then .inf else .ninf)
      else .num (a / b)
  | .num _, .inf => .num 0
  | .num _, .ninf => .num 0
  | .inf, .num b => if 0 ≤ b then .inf else .ninf
  | .ninf, .num b => if 0 ≤ b then .ninf else .inf
  | .inf, .inf => .nan
  | .inf, .ninf => .nan
  | .ninf, .inf => .nan
  | .ninf, .ninf => .nan

/-- Test of `np.isfinite` on the float model. -/
def Fl.isFinite : Fl → Bool
  | .num _ => true
  | _ => false

/-- Sum of a float array (`np.sum`).  The fold direction is irrelevant to
the claims: `nan` and mixed infinities dominate in any order. -/
def Fl.sum (l : List Fl) : Fl := l.foldr Fl.add (Fl.num 0)

/-- Python exception classes that the embedded code can raise. -/
inductive PyErr where
  | valueError : String → PyErr
  | typeError : String → PyErr
  | assertionError : String → PyErr
deriving DecidableEq, Repr

/-- True exactly on `ValueError`-class results. -/
def isValueError {α : Type} : Except PyErr α → Bool
  | .error (.valueError _) => true
  | _ => false

/-- The `_ParzenEstimatorParameters` named tuple (source lines 25-38).
`prior_weight` is `Optional[float]`; the claims only exercise it at
finite values, so it is carried as `Option ℚ`.  The `weights` callable
returns a float array, carried in the full float model `Fl`. -/
structure PEParams where
  consider_prior : Bool
  prior_weight : Option ℚ
  consider_magic_clip : Bool
  consider_endpoints : Bool
  weights : ℕ → List Fl
  multivariate : Bool

/-- The `_ParzenEstimator._calculate_weights` classmethod (source lines
81-127).  Faithful points: `n_observations == 0` forces the prior on
(line 94-95); the three validations run only when `predetermined_weights`
is `None` (lines 97-114); with the prior on, numpy's
`weights[:-1] = w` raises a broadcast `ValueError` when `w` is shorter
than `n` (line 122) and `weights[-1] = prior_weight` raises a `TypeError`
when `prior_weight` is `None` (line 123); finally the whole vector is
divided by its sum (line 126). -/
def calculate_weights (predetermined : Option (List Fl)) (n : ℕ)
    (p : PEParams) : Except PyErr (List Fl) :=
  let considerPrior := p.consider_prior || decide (n = 0)
  let validated : Except PyErr (List Fl) :=
    match predetermined with
    | none =>
      let w := (p.weights n).take n
      if w.any (fun x => Fl.lt x (Fl.num 0)) then
        .error (.valueError "the weights function returned negative values")
      else if decide (0 < w.length) && Fl.le (Fl.sum w) (Fl.num 0) then
        .error (.valueError "the weights function returned all-zero values")
      else if !(w.all Fl.isFinite) then
        .error (.valueError "the weights function returned non-finite values")
      else .ok w
    | some pd => .ok (pd.take n)
  match validated with
  | .error e => .error e
  | .ok w =>
    if considerPrior then
      if w.length ≠ n then
        .error (.valueError "could not broadcast input array")
      else
        match p.prior_weight with
        | none => .error (.typeError "float argument must not be NoneType")
        | some pw =>
          let ws := w ++ [Fl.num pw]
          .ok (ws.map (fun x => Fl.div x (Fl.sum ws)))
    else
      .ok (w.map (fun x => Fl.div x (Fl.sum w)))

/-- The same computation in the `predetermined_weights` branch, with the
numpy aliasing made explicit.  `w = predetermined_weights[:n]` (line 116)
is a view; in the `consider_prior` branch the view is only copied out of
(line 122) but in the `else` branch `weights` IS the view and
`weights /= weights.sum()` (lines 125-126) divides the caller's buffer in
place.  The second component of the result is the final contents of the
caller's `predetermined_weights` array. -/
def calculate_weights_state (pd : List Fl) (n : ℕ) (p : PEParams) :
    Except PyErr (List Fl × List Fl) :=
  let considerPrior := p.consider_prior || decide (n = 0)
  let w := pd.take n
  if considerPrior then
    if w.length ≠ n then
      .error (.valueError "could not broadcast input array")
    else
      match p.prior_weight with
      | none => .error (.typeError "float argument must not be NoneType")
      | some pw =>
        let ws := w ++ [Fl.num pw]
        .ok (ws.map (fun x => Fl.div x (Fl.sum ws)), pd)
  else
    let s := Fl.sum w
    let normalized := w.map (fun x => Fl.div x s)
    .ok (normalized, normalized ++ pd.drop n)

/-- Consistency of the state-passing model with the plain model: the first
component of `calculate_weights_state` is `calculate_weights` on the same
predetermined array. -/
theorem calculate_weights_state_fst (pd : List Fl) (n : ℕ) (p : PEParams) :
    (calculate_weights_state pd n p).map Prod.fst
      = calculate_weights (some pd) n p := by
  unfold calculate_weights_state calculate_weights
  dsimp only
  by_cases h : (p.consider_prior || decide (n = 0)) = true
  · rw [if_pos h, if_pos h]
    by_cases hl : (pd.take n).length ≠ n
    · rw [if_pos hl, if_pos hl]; rfl
    · rw [if_neg hl, if_neg hl]
      cases p.prior_weight <;> rfl
  · rw [if_neg h, if_neg h]; rfl

/-- Summing a float array of finite values is exact rational summation. -/
theorem Fl.sum_map_num (l : List ℚ) : Fl.sum (l.map Fl.num) = Fl.num l.sum := by
  induction l with
  | nil => rfl
  | cons a t ih =>
      simp only [List.map_cons, Fl.sum, List.foldr_cons, List.sum_cons]
      simp only [Fl.sum] at ih
      rw [ih]
      rfl

/-- Dividing a finite float by a finite non-zero float is exact rational
division. -/
theorem Fl.div_num_num (a s : ℚ) (hs : s ≠ 0) :
    Fl.div (Fl.num a) (Fl.num s) = Fl.num (a / s) := by
  simp [Fl.div, hs]

/-- Elementwise division of a finite float array by a finite non-zero
float is exact rational elementwise division. -/
theorem Fl.map_div_num (l : List ℚ) (s : ℚ) (hs : s ≠ 0) :
    (l.map Fl.num).map (fun x => Fl.div x (Fl.num s))
      = (l.map (fun x => x / s)).map Fl.num := by
  induction l with
  | nil => rfl
  | cons a t ih =>
      simp only [List.map_cons]
      rw [Fl.div_num_num a s hs, ih]

/-- Rational list sums distribute over elementwise division. -/
theorem list_sum_map_div (l : List ℚ) (s : ℚ) :
    (l.map (fun x => x / s)).sum = l.sum / s := by
  induction l with
  | nil => simp
  | cons a t ih => simp [ih, add_div]

/-- Finite float arrays pass the negativity check when all payloads are
non-negative. -/
theorem Fl.any_lt_zero_false (l : List ℚ) (h : ∀ q ∈ l, 0 ≤ q) :
    ((l.map Fl.num).any (fun x => Fl.lt x (Fl.num 0))) = false := by
  induction l with
  | nil => rfl
  | cons a t ih =>
      simp only [List.map_cons, List.any_cons, Bool.or_eq_false_iff]
      constructor
      · simp only [Fl.lt, decide_eq_false_iff_not, not_lt]
        exact h a (List.mem_cons_self a t)
      · exact ih (fun q hq => h q (List.mem_cons_of_mem a hq))

/-- Finite float arrays pass the finiteness check. -/
theorem Fl.all_isFinite_map_num (l : List ℚ) :
    ((l.map Fl.num).all Fl.isFinite) = true := by
  induction l with
  | nil => rfl
  | cons a t ih => simp only [List.map_cons, List.all_cons, ih, Fl.isFinite, Bool.and_self]

/-- Weight-vector normalization respects validation passing: helper facts
are proved before the claim theorems below. -/
theorem calculate_weights_validated (n : ℕ) (p : PEParams) (qs : List ℚ)
    (hw : p.weights n = qs.map Fl.num)
    (hnn : ∀ q ∈ qs.take n, 0 ≤ q)
    (hsum : 0 < n → 0 < (qs.take n).sum) :
    calculate_weights none n p =
      (if (p.consider_prior || decide (n = 0)) = true then
        if ((qs.take n).map Fl.num).length ≠ n then
          .error (.valueError "could not broadcast input array")
        else
          match p.prior_weight with
          | none => .error (.typeError "float argument must not be NoneType")
          | some pw =>
            let ws := ((qs.take n).map Fl.num) ++ [Fl.num pw]
            .ok (ws.map (fun x => Fl.div x (Fl.sum ws)))
      else
        .ok (((qs.take n).map Fl.num).map
          (fun x => Fl.div x (Fl.sum ((qs.take n).map Fl.num))))) := by
  have htake : (p.weights n).take n = (qs.take n).map Fl.num := by
    rw [hw, List.map_take]
  have hc2 : (decide (0 < ((qs.take n).map Fl.num).length)
      && Fl.le (Fl.sum ((qs.take n).map Fl.num)) (Fl.num 0)) = false := by
    rcases Nat.eq_zero_or_pos n with h0 | hpos
    · subst h0
      simp
    · rw [Fl.sum_map_num]
      have hS := hsum hpos
      have : Fl.le (Fl.num (qs.take n).sum) (Fl.num 0) = false := by
        simp only [Fl.le, decide_eq_false_iff_not, not_le]
        exact hS
      rw [this, Bool.and_false]
  unfold calculate_weights
  dsimp only
  rw [htake, Fl.any_lt_zero_false _ hnn, hc2, Fl.all_isFinite_map_num]
  rfl

/-- Configuration for the `C1` counterexample: `consider_prior = true`,
`prior_weight = -1/2` (non-null, as the claim requires), and a weight
function constantly returning `[1.0]`, which is non-negative, finite and
has positive sum. -/
def pC1cex : PEParams :=
  { consider_prior := true
    prior_weight := some (-(1 : ℚ)/2)
    consider_magic_clip := true
    consider_endpoints := true
    weights := fun _ => [Fl.num 1]
    multivariate := false }

/-- C1 is false as stated: in a configuration satisfying every condition
the claim lists (weight function returning non-negative, finite,
positive-sum values; `prior_weight` non-null), `_calculate_weights` at
`n_observations = 1` returns `[2, -1]`, which has a negative entry, so
the result is not elementwise non-negative (and the normalization sign
flips because the negative prior weight enters the sum). -/
theorem C1_counterexample :
    pC1cex.weights 1 = [Fl.num 1] ∧ (0 : ℚ) ≤ 1 ∧ (0 : ℚ) < [(1 : ℚ)].sum ∧
    pC1cex.prior_weight = some (-(1 : ℚ)/2) ∧
    calculate_weights none 1 pC1cex = .ok [Fl.num 2, Fl.num (-1)] ∧
    ¬ (0 : ℚ) ≤ -1 := by
  refine ⟨rfl, by norm_num, by norm_num, rfl, ?_, by norm_num⟩
  unfold calculate_weights
  norm_num [pC1cex, Fl.lt, Fl.le, Fl.sum, Fl.add, Fl.div, Fl.isFinite]

/-- C1 (amended): for every configuration whose weight function returns
non-negative finite values, at least `n_observations` of them, with
positive sum over the first `n_observations` when `n_observations > 0`,
and whose prior weight, whenever the prior is considered, is present and
non-negative (strictly positive when `n_observations = 0`), the weight
vector returned by `_calculate_weights` is elementwise non-negative, sums
to exactly 1, and has length `n_observations + 1` when the prior is
considered and `n_observations` otherwise.  The amendment adds the sign
condition on `prior_weight` and the length condition on the weight
function, which the counterexample shows are necessary. -/
theorem C1_weights_normalized (n : ℕ) (p : PEParams) (qs : List ℚ)
    (hw : p.weights n = qs.map Fl.num)
    (hnn : ∀ q ∈ qs, 0 ≤ q)
    (hlen : n ≤ qs.length)
    (hsum : 0 < n → 0 < (qs.take n).sum)
    (hprior : (p.consider_prior || decide (n = 0)) = true →
      ∃ pw, p.prior_weight = some pw ∧ 0 ≤ pw ∧ (n = 0 → 0 < pw)) :
    ∃ rs : List ℚ,
      calculate_weights none n p = .ok (rs.map Fl.num) ∧
      (∀ r ∈ rs, 0 ≤ r) ∧ rs.sum = 1 ∧
      rs.length = if p.consider_prior || decide (n = 0) then n + 1 else n := by
  have hnn' : ∀ q ∈ qs.take n, 0 ≤ q := fun q hq => hnn q (List.take_subset n qs hq)
  have hlen' : (qs.take n).length = n := by
    rw [List.length_take]
    exact Nat.min_eq_left hlen
  rw [calculate_weights_validated n p qs hw hnn' hsum]
  by_cases hc : (p.consider_prior || decide (n = 0)) = true
  · rw [if_pos hc, if_pos hc]
    obtain ⟨pw, hpw, hpw0, hpw1⟩ := hprior hc
    rw [hpw]
    rw [if_neg (show ¬((qs.take n).map Fl.num).length ≠ n by
      rw [List.length_map, hlen']
      exact fun h => h rfl)]
    have hws : ((qs.take n).map Fl.num) ++ [Fl.num pw]
        = ((qs.take n) ++ [pw]).map Fl.num := by
      simp
    have hS : 0 < ((qs.take n) ++ [pw]).sum := by
      rw [List.sum_append, List.sum_singleton]
      rcases Nat.eq_zero_or_pos n with h0 | hpos
      · subst h0
        simpa using hpw1 rfl
      · have h1 := hsum hpos
        have h2 := hpw0
        linarith
    have hSne : ((qs.take n) ++ [pw]).sum ≠ 0 := ne_of_gt hS
    refine ⟨((qs.take n) ++ [pw]).map (fun x => x / ((qs.take n) ++ [pw]).sum), ?_, ?_, ?_, ?_⟩
    · dsimp only
      rw [hws, Fl.sum_map_num, Fl.map_div_num _ _ hSne]
    · intro r hr
      obtain ⟨x, hx, hxr⟩ := List.mem_map.mp hr
      subst hxr
      have hx0 : 0 ≤ x := by
        rcases List.mem_append.mp hx with hxt | hxs
        · exact hnn' x hxt
        · rw [List.mem_singleton.mp hxs]
          exact hpw0
      exact div_nonneg hx0 (le_of_lt hS)
    · rw [list_sum_map_div, div_self hSne]
    · rw [List.length_map, List.length_append, hlen', List.length_singleton]
  · rw [if_neg hc, if_neg hc]
    have hn0 : n ≠ 0 := by
      intro h0
      exact hc (by simp [h0])
    have hS : 0 < (qs.take n).sum := hsum (Nat.pos_of_ne_zero hn0)
    have hSne : (qs.take n).sum ≠ 0 := ne_of_gt hS
    refine ⟨(qs.take n).map (fun x => x / (qs.take n).sum), ?_, ?_, ?_, ?_⟩
    · rw [Fl.sum_map_num, Fl.map_div_num _ _ hSne]
    · intro r hr
      obtain ⟨x, hx, hxr⟩ := List.mem_map.mp hr
      subst hxr
      exact div_nonneg (hnn' x hx) (le_of_lt hS)
    · rw [list_sum_map_div, div_self hSne]
    · rw [List.length_map, hlen']

/-- Configuration for the `C1` witness: prior considered with prior weight
`1.0` and a weight function constantly returning `[1.0]`. -/
def pC1wit : PEParams :=
  { consider_prior := true
    prior_weight := some 1
    consider_magic_clip := true
    consider_endpoints := true
    weights := fun _ => [Fl.num 1]
    multivariate := false }

/-- Witness for `C1_weights_normalized` at `n_observations = 1`. -/
theorem C1_weights_normalized_witness :
    ∃ rs : List ℚ,
      calculate_weights none 1 pC1wit = .ok (rs.map Fl.num) ∧
      (∀ r ∈ rs, 0 ≤ r) ∧ rs.sum = 1 ∧
      rs.length = if pC1wit.consider_prior || decide ((1:ℕ) = 0) then 1 + 1 else 1 :=
  C1_weights_normalized 1 pC1wit [1] rfl
    (by intro q hq; rw [List.mem_singleton.mp hq]; norm_num)
    (by norm_num)
    (fun _ => by norm_num)
    (fun _ => ⟨1, rfl, by norm_num, fun _ => by norm_num⟩)

/-- C7: with `predetermined_weights` absent, `_calculate_weights` raises a
`ValueError`-class error exactly when the first `n_observations` entries
returned by the weight function contain a negative value, or are non-empty
with sum at most 0, or contain a non-finite value (the hypothesis
`n ≤ length` records that the weight function returns at least
`n_observations` entries, which the claim's wording presupposes); with
`predetermined_weights` given, the first `n_observations` entries are used
verbatim — unvalidated — both in the no-prior branch (second conjunct)
and in the prior branch (third conjunct). -/
theorem C7_validation_iff :
    (∀ (n : ℕ) (p : PEParams), n ≤ (p.weights n).length →
      (isValueError (calculate_weights none n p) = true ↔
        (∃ x ∈ (p.weights n).take n, Fl.lt x (Fl.num 0) = true) ∨
        (0 < n ∧ Fl.le (Fl.sum ((p.weights n).take n)) (Fl.num 0) = true) ∨
        (∃ x ∈ (p.weights n).take n, x.isFinite = false)))
    ∧ (∀ (l : List Fl) (n : ℕ) (p : PEParams),
        p.consider_prior = false → n ≠ 0 →
        calculate_weights (some l) n p
          = .ok ((l.take n).map (fun x => Fl.div x (Fl.sum (l.take n)))))
    ∧ (∀ (l : List Fl) (n : ℕ) (p : PEParams) (pw : ℚ),
        n ≤ l.length → p.prior_weight = some pw →
        (p.consider_prior = true ∨ n = 0) →
        calculate_weights (some l) n p
          = .ok (((l.take n) ++ [Fl.num pw]).map
              (fun x => Fl.div x (Fl.sum ((l.take n) ++ [Fl.num pw]))))) := by
  refine ⟨?_, ?_, ?_⟩
  · intro n p hlen
    have hwlen : ((p.weights n).take n).length = n := by
      rw [List.length_take]
      exact Nat.min_eq_left hlen
    unfold calculate_weights
    dsimp only
    by_cases h1 : ((p.weights n).take n).any (fun x => Fl.lt x (Fl.num 0)) = true
    · rw [if_pos h1]
      exact ⟨fun _ => Or.inl (List.any_eq_true.mp h1), fun _ => rfl⟩
    · rw [if_neg h1]
      by_cases h2 : (decide (0 < ((p.weights n).take n).length)
          && Fl.le (Fl.sum ((p.weights n).take n)) (Fl.num 0)) = true
      · rw [if_pos h2]
        refine ⟨fun _ => Or.inr (Or.inl ?_), fun _ => rfl⟩
        rw [Bool.and_eq_true] at h2
        obtain ⟨ha, hb⟩ := h2
        rw [hwlen] at ha
        exact ⟨of_decide_eq_true ha, hb⟩
      · rw [if_neg h2]
        by_cases h3 : (!((p.weights n).take n).all Fl.isFinite) = true
        · rw [if_pos h3]
          refine ⟨fun _ => Or.inr (Or.inr ?_), fun _ => rfl⟩
          rw [Bool.not_eq_true'] at h3
          obtain ⟨x, hx, hfx⟩ := List.all_eq_false.mp h3
          exact ⟨x, hx, Bool.eq_false_iff.mpr hfx⟩
        · rw [if_neg h3]
          have hfalse : isValueError
              (match Except.ok ((p.weights n).take n) with
                | Except.error e => Except.error e
                | Except.ok w =>
                  if (p.consider_prior || decide (n = 0)) = true then
                    if w.length ≠ n then
                      (.error (.valueError "could not broadcast input array")
                        : Except PyErr (List Fl))
                    else
                      match p.prior_weight with
                      | none => .error (.typeError "float argument must not be NoneType")
                      | some pw =>
                        let ws := w ++ [Fl.num pw]
                        .ok (ws.map (fun x => Fl.div x (Fl.sum ws)))
                  else
                    .ok (w.map (fun x => Fl.div x (Fl.sum w)))) = false := by
            dsimp only
            by_cases hc : (p.consider_prior || decide (n = 0)) = true
            · rw [if_pos hc, if_neg (show ¬((p.weights n).take n).length ≠ n by
                rw [hwlen]; exact fun h => h rfl)]
              cases p.prior_weight <;> rfl
            · rw [if_neg hc]; rfl
          rw [hfalse]
          constructor
          · intro habs
            exact absurd habs (by simp)
          · intro hdis
            exfalso
            rcases hdis with hd1 | ⟨hd2a, hd2b⟩ | hd3
            · exact h1 (List.any_eq_true.mpr hd1)
            · refine h2 ?_
              rw [Bool.and_eq_true]
              exact ⟨by rw [hwlen]; exact decide_eq_true hd2a, hd2b⟩
            · obtain ⟨x, hx, hfx⟩ := hd3
              have hall : ((p.weights n).take n).all Fl.isFinite = true := by
                rcases Bool.eq_false_or_eq_true (((p.weights n).take n).all Fl.isFinite)
                  with ht | hf
                · exact ht
                · exact absurd (show (!((p.weights n).take n).all Fl.isFinite) = true by
                    rw [Bool.not_eq_true', hf]) h3
              have := List.all_eq_true.mp hall x hx
              rw [hfx] at this
              exact absurd this (by simp)
  · intro l n p hcp hn
    unfold calculate_weights
    dsimp only
    rw [if_neg (show ¬(p.consider_prior || decide (n = 0)) = true by
      rw [hcp, decide_eq_false hn]
      exact fun h => absurd h (by simp))]
  · intro l n p pw hlen hpw hcp
    have hwlen : (l.take n).length = n := by
      rw [List.length_take]
      exact Nat.min_eq_left hlen
    unfold calculate_weights
    dsimp only
    rw [if_pos (show (p.consider_prior || decide (n = 0)) = true by
      rcases hcp with h | h
      · rw [h]; rfl
      · rw [h]; simp)]
    rw [if_neg (show ¬(l.take n).length ≠ n by rw [hwlen]; exact fun h => h rfl), hpw]

/-- Configuration for the `C7` witness: a weight function returning a
negative value at `n_observations = 1`. -/
def pC7wit : PEParams :=
  { consider_prior := false
    prior_weight := some 1
    consider_magic_clip := true
    consider_endpoints := true
    weights := fun _ => [Fl.num (-1)]
    multivariate := false }

/-- Witness for `C7_validation_iff`: the negative weight function raises a
`ValueError`-class error. -/
theorem C7_validation_iff_witness :
    isValueError (calculate_weights none 1 pC7wit) = true :=
  (C7_validation_iff.1 1 pC7wit (by norm_num [pC7wit])).mpr
    (Or.inl ⟨Fl.num (-1), by norm_num [pC7wit], by norm_num [Fl.lt]⟩)

/-- Configuration used in the concrete conjunct of `C10`:
`consider_prior = false`, so the normalization acts on the view into the
caller's array. -/
def pC10 : PEParams :=
  { consider_prior := false
    prior_weight := none
    consider_magic_clip := true
    consider_endpoints := true
    weights := fun _ => []
    multivariate := false }

/-- C10: with predetermined weights and the prior not considered (and
`n_observations > 0`), normalization divides the caller's array in place —
the final contents of the caller's buffer are the normalized prefix
followed by the untouched tail, and the returned vector aliases that
prefix (first conjunct); when the prior is considered, a fresh vector is
allocated and the caller's array is returned unchanged (second conjunct);
concretely, a caller buffer `[2.0]` is left as `[1.0]` after construction
(third conjunct), which differs from its initial contents (fourth
conjunct). -/
theorem C10_inplace_normalization :
    (∀ (l : List Fl) (n : ℕ) (p : PEParams), p.consider_prior = false → n ≠ 0 →
      calculate_weights_state l n p
        = .ok ((l.take n).map (fun x => Fl.div x (Fl.sum (l.take n))),
               (l.take n).map (fun x => Fl.div x (Fl.sum (l.take n))) ++ l.drop n))
    ∧ (∀ (l : List Fl) (n : ℕ) (p : PEParams) (res : List Fl × List Fl),
        (p.consider_prior = true ∨ n = 0) →
        calculate_weights_state l n p = .ok res → res.2 = l)
    ∧ calculate_weights_state [Fl.num 2] 1 pC10 = .ok ([Fl.num 1], [Fl.num 1])
    ∧ ([Fl.num 1] : List Fl) ≠ [Fl.num 2] := by
  refine ⟨?_, ?_, ?_, ?_⟩
  · intro l n p hcp hn
    unfold calculate_weights_state
    dsimp only
    rw [if_neg (show ¬(p.consider_prior || decide (n = 0)) = true by
      rw [hcp, decide_eq_false hn]
      exact fun h => absurd h (by simp))]
  · intro l n p res hcp hok
    unfold calculate_weights_state at hok
    dsimp only at hok
    rw [if_pos (show (p.consider_prior || decide (n = 0)) = true by
      rcases hcp with h | h
      · rw [h]; rfl
      · rw [h]; simp)] at hok
    by_cases hl : (l.take n).length ≠ n
    · rw [if_pos hl] at hok
      exact absurd hok (by simp)
    · rw [if_neg hl] at hok
      cases hpw : p.prior_weight with
      | none =>
          rw [hpw] at hok
          exact absurd hok (by simp)
      | some pw =>
          rw [hpw] at hok
          have hpair := Except.ok.inj hok
          rw [← hpair]
  · unfold calculate_weights_state
    norm_num [pC10, Fl.sum, Fl.add, Fl.div]
  · intro h
    have := List.head_eq_of_cons_eq h
    rw [Fl.num.injEq] at this
    norm_num at this

/-- Witness for `C10_inplace_normalization`: the no-prior branch applied
to the concrete buffer `[3.0]` at `n_observations = 1`. -/
theorem C10_inplace_normalization_witness :
    calculate_weights_state [Fl.num 3] 1 pC10
      = .ok ((([Fl.num 3]).take 1).map (fun x => Fl.div x (Fl.sum (([Fl.num 3]).take 1))),
             (([Fl.num 3]).take 1).map (fun x => Fl.div x (Fl.sum (([Fl.num 3]).take 1)))
               ++ ([Fl.num 3]).drop 1) :=
  C10_inplace_normalization.1 [Fl.num 3] 1 pC10 rfl one_ne_zero

/-- A search-space entry, mirroring the three optuna distribution classes
the estimator accepts (source lines 18-22): `FloatDistribution` with real
bounds, optional step and log flag; `IntDistribution` with integer
bounds, integer step and log flag; `CategoricalDistribution`, of which the
estimator uses only the number of choices (values are integer choice
indices). -/
inductive Distribution where
  | categorical (nChoices : ℕ)
  | float (low high : ℝ) (step : Option ℝ) (lg : Bool)
  | int (low high : ℤ) (step : ℤ) (lg : Bool)

/-- Scalar model of `np.round`: round half to even (numpy uses banker
rounding).  The claims settled here do not depend on the tie rule, but
the model keeps numpy's choice. -/
noncomputable def np_round (x : ℝ) : ℤ :=
  if x - Int.floor x < 1/2 then Int.floor x
  else if 1/2 < x - Int.floor x then Int.floor x + 1
  else if Even (Int.floor x) then Int.floor x else Int.floor x + 1

/-- Rounding an exact integer returns it. -/
theorem np_round_intCast (m : ℤ) : np_round (m : ℝ) = m := by
  unfold np_round
  rw [Int.floor_intCast, sub_self]
  rw [if_pos (by norm_num : (0:ℝ) < 1/2)]

/-- Rounding an exact grid offset recovers the grid index. -/
theorem np_round_grid (low q : ℝ) (m : ℤ) (hq : q ≠ 0) :
    np_round ((low + (m : ℝ) * q - low) / q) = m := by
  have h : (low + (m : ℝ) * q - low) / q = (m : ℝ) := by
    field_simp
  rw [h, np_round_intCast]

/-- Forward transform `_transform_to_uniform`, per parameter value
(source lines 129-149): log-scaled numerical parameters are logged
(line 143-144), everything else passes through. -/
noncomputable def transform_to_uniform_value (d : Distribution) (x : ℝ) : ℝ :=
  match d with
  | .categorical _ => x
  | .float _ _ _ lg => if lg then Real.log x else x
  | .int _ _ _ lg => if lg then Real.log x else x

/-- Inverse transform `_transform_from_uniform`, per parameter value
(source lines 151-188).  `np.clip(v, low, high)` is `min high (max low v)`.
Float log: exponentiate only (lines 162-164).  Float with step: snap to
the grid and clip (lines 165-170).  Float plain: identity (lines 171-172).
Int log: exponentiate, round, clip (lines 173-178).  Int plain: snap to
the grid and clip (lines 179-184).  Categorical: identity (lines 185-186). -/
noncomputable def transform_from_uniform_value (d : Distribution) (x : ℝ) : ℝ :=
  match d with
  | .categorical _ => x
  | .float low high step lg =>
      if lg then Real.exp x
      else
        match step with
        | some q => min high (max low ((np_round ((x - low) / q) : ℝ) * q + low))
        | none => x
  | .int low high step lg =>
      if lg then min (high : ℝ) (max (low : ℝ) ((np_round (Real.exp x) : ℝ)))
      else min (high : ℝ) (max (low : ℝ)
        ((np_round ((x - (low : ℝ)) / (step : ℝ)) : ℝ) * (step : ℝ) + (low : ℝ)))

/-- Round trip of the domain transformer: forward then inverse. -/
noncomputable def transform_roundtrip (d : Distribution) (x : ℝ) : ℝ :=
  transform_from_uniform_value d (transform_to_uniform_value d x)

/-- Effective working-domain `low`, `high`, `step` computed by
`_calculate_distributions` for a numerical parameter (source lines
201-219): bounds are logged when `log` is set (lines 203-208), and for a
log parameter with a step the native bounds are widened by half a step,
logged, and the step dropped (lines 211-215).  These are exactly the
truncation bounds stored in the built (discrete) truncated-normal
components (lines 318-332).  A categorical parameter stores no bounds;
the junk triple `(0, 0, none)` is returned for it. -/
noncomputable def working_bounds (d : Distribution) : ℝ × ℝ × Option ℝ :=
  match d with
  | .categorical _ => (0, 0, none)
  | .float low high step lg =>
      match step, lg with
      | some q, true => (Real.log (low - q / 2), Real.log (high + q / 2), none)
      | some q, false => (low, high, some q)
      | none, true => (Real.log low, Real.log high, none)
      | none, false => (low, high, none)
  | .int low high step lg =>
      if lg then (Real.log ((low : ℝ) - (step : ℝ) / 2),
                  Real.log ((high : ℝ) + (step : ℝ) / 2), none)
      else ((low : ℝ), (high : ℝ), some (step : ℝ))

/-- Data-model invariants of a declared search-space entry (spec section
3): non-degenerate bounds, positive step evenly subdividing the range,
and positive lower bound for log-scaled parameters. -/
def validDist : Distribution → Prop
  | .categorical k => 0 < k
  | .float low high step lg =>
      low < high ∧ (lg = true → 0 < low) ∧
      (∀ q, step = some q → 0 < q ∧ ∃ m : ℤ, high = low + m * q)
  | .int low high step lg => low < high ∧ 0 < step ∧ step ∣ (high - low)
      ∧ (lg = true → 0 < low)

/-- Membership of a value in a parameter's native domain: inside the
declared bounds, on the declared grid for stepped parameters, and a
choice index for categorical parameters. -/
def inNativeDomain : Distribution → ℝ → Prop
  | .categorical k, x => ∃ i : ℕ, i < k ∧ x = i
  | .float low high step _, x =>
      low ≤ x ∧ x ≤ high ∧ (∀ q, step = some q → ∃ m : ℤ, x = low + m * q)
  | .int low high step _, x =>
      (low : ℝ) ≤ x ∧ x ≤ (high : ℝ) ∧ ∃ m : ℤ, x = (low : ℝ) + (m : ℝ) * (step : ℝ)

/-- Clipping a grid point into a grid-aligned interval lands on a grid
point of the interval. -/
theorem clip_grid (low q : ℝ) (hq : 0 < q) (m k : ℤ) (hm : 0 ≤ m) :
    ∃ j : ℤ, 0 ≤ j ∧ j ≤ m ∧
      min (low + (m : ℝ) * q) (max low ((k : ℝ) * q + low)) = low + (j : ℝ) * q := by
  refine ⟨min m (max 0 k), le_min hm (le_max_left 0 k), min_le_left _ _, ?_⟩
  rcases le_or_lt k 0 with hk | hk
  · rw [max_eq_left hk, min_eq_right hm]
    have hkr : (k : ℝ) ≤ 0 := by exact_mod_cast hk
    have hmr : (0 : ℝ) ≤ m := by exact_mod_cast hm
    rw [max_eq_left (by nlinarith : (k : ℝ) * q + low ≤ low)]
    rw [min_eq_right (by nlinarith : low ≤ low + (m : ℝ) * q)]
    norm_num
  · rw [max_eq_right (le_of_lt hk)]
    have hkr : (0 : ℝ) < k := by exact_mod_cast hk
    rw [max_eq_right (by nlinarith : low ≤ (k : ℝ) * q + low)]
    rcases le_total m k with hmk | hkm
    · rw [min_eq_left hmk]
      have hmkr : (m : ℝ) ≤ k := by exact_mod_cast hmk
      rw [min_eq_left (by nlinarith : low + (m : ℝ) * q ≤ (k : ℝ) * q + low)]
    · rw [min_eq_right hkm]
      have hkmr : (k : ℝ) ≤ m := by exact_mod_cast hkm
      rw [min_eq_right (by nlinarith : (k : ℝ) * q + low ≤ low + (m : ℝ) * q)]
      ring

/-- C4: applying `_transform_to_uniform` then `_transform_from_uniform`
to a value inside a parameter's native domain reproduces the value: in
exact arithmetic the reproduction is exact in every case — in particular
exactly for unstepped non-log numerical parameters and for categorical
parameters as claimed — and for stepped or log-stepped parameters the
inverse factors through the snap-to-grid/round and clip path, which fixes
in-domain values, so reproduction "up to quantization/clipping" holds a
fortiori. -/
theorem C4_roundtrip (d : Distribution) (x : ℝ)
    (hv : validDist d) (hx : inNativeDomain d x) :
    transform_roundtrip d x = x := by
  cases d with
  | categorical k => rfl
  | float low high step lg =>
      obtain ⟨hlh, hlog, hstep⟩ := hv
      obtain ⟨hlx, hxh, hgrid⟩ := hx
      cases lg with
      | true =>
          have hx0 : 0 < x := lt_of_lt_of_le (hlog rfl) hlx
          simp only [transform_roundtrip, transform_to_uniform_value,
            transform_from_uniform_value, if_true]
          exact Real.exp_log hx0
      | false =>
          cases step with
          | none =>
              simp [transform_roundtrip, transform_to_uniform_value,
                transform_from_uniform_value]
          | some q =>
              obtain ⟨hq, -⟩ := hstep q rfl
              obtain ⟨m, hmx⟩ := hgrid q rfl
              simp only [transform_roundtrip, transform_to_uniform_value,
                transform_from_uniform_value, Bool.false_eq_true, if_false]
              rw [hmx, np_round_grid low q m (ne_of_gt hq)]
              have h1 : (m : ℝ) * q + low = low + (m : ℝ) * q := by ring
              rw [h1, max_eq_right (hmx ▸ hlx), min_eq_right (hmx ▸ hxh)]
  | int low high step lg =>
      obtain ⟨hlh, hstep, hdvd, hlog⟩ := hv
      obtain ⟨hlx, hxh, m, hmx⟩ := hx
      cases lg with
      | true =>
          have hlow0 : (0 : ℝ) < (low : ℝ) := by exact_mod_cast hlog rfl
          have hx0 : 0 < x := lt_of_lt_of_le hlow0 hlx
          simp only [transform_roundtrip, transform_to_uniform_value,
            transform_from_uniform_value, if_true]
          rw [Real.exp_log hx0]
          have hcast : x = ((low + m * step : ℤ) : ℝ) := by
            push_cast
            exact hmx
          rw [hcast, np_round_intCast]
          rw [max_eq_right (hcast ▸ hlx), min_eq_right (hcast ▸ hxh)]
      | false =>
          simp only [transform_roundtrip, transform_to_uniform_value,
            transform_from_uniform_value, Bool.false_eq_true, if_false]
          have hqne : ((step : ℝ)) ≠ 0 := by
            have : (0 : ℝ) < (step : ℝ) := by exact_mod_cast hstep
            exact ne_of_gt this
          rw [hmx, np_round_grid (low : ℝ) (step : ℝ) m hqne]
          have h1 : (m : ℝ) * (step : ℝ) + (low : ℝ)
              = (low : ℝ) + (m : ℝ) * (step : ℝ) := by ring
          rw [h1, max_eq_right (hmx ▸ hlx), min_eq_right (hmx ▸ hxh)]

/-- Witness for `C4_roundtrip`: the plain float parameter `[0, 1]` and
the in-domain value `1/3`. -/
theorem C4_roundtrip_witness :
    transform_roundtrip (Distribution.float 0 1 none false) (1/3) = 1/3 :=
  C4_roundtrip (Distribution.float 0 1 none false) (1/3)
    ⟨by norm_num, fun h => by simp at h, fun q hq => by simp at hq⟩
    ⟨by norm_num, by norm_num, fun q hq => by simp at hq⟩

/-- C5 is false as stated for integer parameters: for
`IntDistribution(low=1, high=10, step=1, log=true)` and working-domain
value `log(5/2)`, the inverse transform rounds the exponentiated value
(and clips), returning `2`, not the bare exponential `5/2`; so rounding
and clipping ARE applied on the integer log path. -/
theorem C5_counterexample :
    transform_from_uniform_value (Distribution.int 1 10 1 true) (Real.log (5/2)) = 2 ∧
    Real.exp (Real.log (5/2)) = 5/2 ∧ (2 : ℝ) ≠ 5/2 := by
  have hfl : Int.floor ((5:ℝ)/2) = 2 := by
    rw [Int.floor_eq_iff]
    norm_num
  have hr : np_round ((5:ℝ)/2) = 2 := by
    unfold np_round
    rw [hfl]
    norm_num
  refine ⟨?_, Real.exp_log (by norm_num), by norm_num⟩
  simp only [transform_from_uniform_value, if_true]
  rw [Real.exp_log (by norm_num : (0:ℝ) < 5/2), hr]
  norm_num

/-- C5 (amended): for FLOAT parameters with `log = true` the inverse
transform only exponentiates — no clipping and no rounding, whatever the
step; for INT parameters with `log = true` it exponentiates, rounds, and
clips into `[low, high]`. -/
theorem C5_log_inverse (low high : ℝ) (step : Option ℝ)
    (ilow ihigh istep : ℤ) (x : ℝ) :
    transform_from_uniform_value (Distribution.float low high step true) x
      = Real.exp x ∧
    transform_from_uniform_value (Distribution.int ilow ihigh istep true) x
      = min (ihigh : ℝ) (max (ilow : ℝ) ((np_round (Real.exp x) : ℝ))) :=
  ⟨rfl, rfl⟩

/-- Restriction forced by the `C3` counterexample: float parameters may
not combine `log` with a `step`, and integer log parameters must have
unit step.  (Outside `src/`, optuna's distribution constructors enforce
exactly these two combinations; the estimator file itself does not.) -/
def noLogStepConflict : Distribution → Prop
  | .float _ _ step lg => lg = true → step = none
  | .int _ _ step lg => lg = true → step = 1
  | .categorical _ => True

/-- Being inside the declared native domain: within `[low, high]` and on
the declared grid `low + k * step` for integer or stepped parameters.
Categorical values carry no bounds, so the condition is trivial there. -/
def inDeclaredDomain : Distribution → ℝ → Prop
  | .categorical _, _ => True
  | .float low high step _, v =>
      low ≤ v ∧ v ≤ high ∧ (∀ q, step = some q → ∃ k : ℤ, v = low + k * q)
  | .int low high step _, v =>
      (low : ℝ) ≤ v ∧ v ≤ (high : ℝ) ∧ ∃ k : ℤ, v = (low : ℝ) + (k : ℝ) * (step : ℝ)

/-- C3 (amended): for a valid parameter — excluding float parameters
combining `log` and `step` and integer log parameters with non-unit step,
where the claim fails — any working-domain value within the truncation
bounds stored by `_calculate_distributions` is mapped by
`_transform_from_uniform` into the declared `[low, high]`, landing
exactly on the declared grid for integer and stepped parameters. -/
theorem C3_sample_in_domain (d : Distribution) (x : ℝ)
    (hv : validDist d) (hc : noLogStepConflict d)
    (hlo : (working_bounds d).1 ≤ x) (hhi : x ≤ (working_bounds d).2.1) :
    inDeclaredDomain d (transform_from_uniform_value d x) := by
  cases d with
  | categorical k => trivial
  | float low high step lg =>
      obtain ⟨hlh, hlog, hstep⟩ := hv
      cases lg with
      | true =>
          have hnone : step = none := hc rfl
          subst hnone
          simp only [working_bounds] at hlo hhi
          have hl0 : 0 < low := hlog rfl
          have hh0 : 0 < high := lt_trans hl0 hlh
          refine ⟨?_, ?_, fun q hq => by simp at hq⟩
          · have h := Real.exp_le_exp.mpr hlo
            rwa [Real.exp_log hl0] at h
          · have h := Real.exp_le_exp.mpr hhi
            rwa [Real.exp_log hh0] at h
      | false =>
          cases step with
          | none =>
              simp only [working_bounds] at hlo hhi
              exact ⟨hlo, hhi, fun q hq => by simp at hq⟩
          | some q =>
              simp only [working_bounds] at hlo hhi
              obtain ⟨hq, m, hhigh⟩ := hstep q rfl
              have hmpos : (0 : ℝ) < (m : ℝ) * q := by
                rw [hhigh] at hlh
                linarith
              have hm0 : 0 ≤ m := by
                rcases mul_pos_iff.mp hmpos with ⟨h1, _⟩ | ⟨_, h2⟩
                · exact le_of_lt (by exact_mod_cast h1)
                · linarith
              obtain ⟨j, hj0, hjm, heq⟩ :=
                clip_grid low q hq m (np_round ((x - low) / q)) hm0
              have hveq : transform_from_uniform_value
                  (Distribution.float low high (some q) false) x = low + (j : ℝ) * q := by
                show min high (max low ((np_round ((x - low) / q) : ℝ) * q + low))
                    = low + (j : ℝ) * q
                rw [hhigh]
                exact heq
              have hj0r : (0 : ℝ) ≤ (j : ℝ) := by exact_mod_cast hj0
              have hjmr : (j : ℝ) ≤ (m : ℝ) := by exact_mod_cast hjm
              refine ⟨?_, ?_, fun q2 hq2 => ?_⟩
              · rw [hveq]
                nlinarith
              · rw [hveq, hhigh]
                nlinarith
              · rw [Option.some_inj] at hq2
                subst hq2
                exact ⟨j, hveq⟩
  | int low high step lg =>
      obtain ⟨hlh, hstep, hdvd, hlog⟩ := hv
      cases lg with
      | true =>
          have hs1 : step = 1 := hc rfl
          subst hs1
          have hlhr : (low : ℝ) ≤ (high : ℝ) := by exact_mod_cast le_of_lt hlh
          have hv2 : transform_from_uniform_value (Distribution.int low high 1 true) x
              = ((min high (max low (np_round (Real.exp x))) : ℤ) : ℝ) := by
            show min (high : ℝ) (max (low : ℝ) ((np_round (Real.exp x) : ℝ)))
                = ((min high (max low (np_round (Real.exp x))) : ℤ) : ℝ)
            norm_cast
          refine ⟨?_, ?_, ⟨min high (max low (np_round (Real.exp x))) - low, ?_⟩⟩
          · exact le_min hlhr (le_max_left _ _)
          · exact min_le_left _ _
          · rw [hv2]
            push_cast
            ring
      | false =>
          simp only [working_bounds] at hlo hhi
          obtain ⟨m, hm⟩ := hdvd
          have hm' : high = low + m * step := by linarith [hm]
          have hm0 : 0 ≤ m := by nlinarith
          have hqr : (0 : ℝ) < (step : ℝ) := by exact_mod_cast hstep
          have hhighr : (high : ℝ) = (low : ℝ) + (m : ℝ) * (step : ℝ) := by
            exact_mod_cast hm'
          obtain ⟨j, hj0, hjm, heq⟩ :=
            clip_grid (low : ℝ) (step : ℝ) hqr m
              (np_round ((x - (low : ℝ)) / (step : ℝ))) hm0
          have hveq : transform_from_uniform_value (Distribution.int low high step false) x
              = (low : ℝ) + (j : ℝ) * (step : ℝ) := by
            show min (high : ℝ) (max (low : ℝ)
                ((np_round ((x - (low : ℝ)) / (step : ℝ)) : ℝ) * (step : ℝ) + (low : ℝ)))
                = (low : ℝ) + (j : ℝ) * (step : ℝ)
            rw [hhighr]
            exact heq
          have hj0r : (0 : ℝ) ≤ (j : ℝ) := by exact_mod_cast hj0
          have hjmr : (j : ℝ) ≤ (m : ℝ) := by exact_mod_cast hjm
          refine ⟨?_, ?_, ⟨j, hveq⟩⟩
          · rw [hveq]
            nlinarith
          · rw [hveq, hhighr]
            nlinarith

/-- Witness for `C3_sample_in_domain`: the plain float parameter `[0, 1]`
with sampled working value `1/2`. -/
theorem C3_sample_in_domain_witness :
    inDeclaredDomain (Distribution.float 0 1 none false)
      (transform_from_uniform_value (Distribution.float 0 1 none false) (1/2)) :=
  C3_sample_in_domain (Distribution.float 0 1 none false) (1/2)
    ⟨by norm_num, fun h => by simp at h, fun q hq => by simp at hq⟩
    (fun h => by simp at h)
    (by norm_num [working_bounds])
    (by norm_num [working_bounds])

/-- C3 is false as stated: `FloatDistribution(low=1, high=2, step=1,
log=true)` satisfies the data-model invariants, the working value
`log(5/2)` lies within the truncation bounds
`[log(1 - 1/2), log(2 + 1/2)]` stored for this parameter by
`_calculate_distributions` (the log-with-step hack), yet
`_transform_from_uniform` returns `5/2`, which exceeds the declared
`high = 2` (and is off the declared grid). -/
theorem C3_counterexample :
    validDist (Distribution.float 1 2 (some 1) true) ∧
    (working_bounds (Distribution.float 1 2 (some 1) true)).1 ≤ Real.log (5/2) ∧
    Real.log (5/2) ≤ (working_bounds (Distribution.float 1 2 (some 1) true)).2.1 ∧
    transform_from_uniform_value (Distribution.float 1 2 (some 1) true) (Real.log (5/2))
      = 5/2 ∧
    ¬ (5/2 : ℝ) ≤ 2 := by
  refine ⟨⟨by norm_num, fun _ => by norm_num, fun q hq => ?_⟩, ?_, ?_, ?_, by norm_num⟩
  · rw [Option.some_inj] at hq
    subst hq
    exact ⟨by norm_num, 1, by norm_num⟩
  · simp only [working_bounds]
    have h1 : (1 : ℝ) - 1/2 = 1/2 := by norm_num
    rw [h1]
    exact Real.log_le_log (by norm_num) (by norm_num)
  · simp only [working_bounds]
    have h2 : (2 : ℝ) + 1/2 = 5/2 := by norm_num
    rw [h2]
  · show Real.exp (Real.log (5/2)) = 5/2
    exact Real.exp_log (by norm_num)

/-- `EPS` (source line 15), the decimal literal `1e-12` as an exact
rational constant in ℝ. -/
noncomputable def EPS : ℝ := 1 / 10 ^ 12

/-- `SIGMA0_MAGNITUDE` (source line 16), the literal `0.2`. -/
noncomputable def SIGMA0_MAGNITUDE : ℝ := 1 / 5

/-- One mixture component built by the numerical builder: a (possibly
discretized) truncated normal `(mu, sigma, low, high[, step])`
(source lines 318-332); `step = none` is `_truncnorm_distribution`,
`step = some _` is `_discrete_truncnorm_distribution`. -/
structure TruncnormComponent where
  mu : ℝ
  sigma : ℝ
  low : ℝ
  high : ℝ
  step : Option ℝ

/-- Stable argsort of a real list (`np.argsort`, source line 288):
indices ordered by value, ties broken by position.  numpy's default
quicksort leaves the tie order unspecified; no claim depends on it. -/
noncomputable def argsortR (l : List ℝ) : List ℕ :=
  (List.range l.length).insertionSort
    (fun i j => l.getD i 0 < l.getD j 0 ∨ (l.getD i 0 = l.getD j 0 ∧ i ≤ j))

/-- The non-multivariate bandwidth heuristic (source lines 287-304):
sort the means, pad the sorted sequence with the half-step-widened
endpoints (lines 290-293), give each mean the larger of its two neighbor
gaps (lines 295-298), override the first and last gap with the adjacent
interior gap when endpoints are not considered and there are at least 4
padded points (lines 300-302), and un-sort
(`sorted_sigmas[np.argsort(sorted_indices)]`, line 304: position `i`
receives the sorted-order sigma at the position of `i` in the sort
permutation). -/
noncomputable def neighborSigmas (mus : List ℝ) (low high step0 : ℝ)
    (considerEndpoints : Bool) : List ℝ :=
  let perm := argsortR mus
  let sortedMus := perm.map (fun i => mus.getD i 0)
  let ext := [low - step0 / 2] ++ sortedMus ++ [high + step0 / 2]
  let sortedSigmas := (List.range sortedMus.length).map (fun i =>
      max (ext.getD (i + 1) 0 - ext.getD i 0)
          (ext.getD (i + 2) 0 - ext.getD (i + 1) 0))
  let sortedSigmas2 :=
    if considerEndpoints = false ∧ 4 ≤ ext.length then
      (sortedSigmas.set 0 (ext.getD 2 0 - ext.getD 1 0)).set
        (sortedSigmas.length - 1)
        (ext.getD (ext.length - 2) 0 - ext.getD (ext.length - 3) 0)
    else sortedSigmas
  (List.range mus.length).map (fun i => sortedSigmas2.getD (perm.indexOf i) 0)

/-- The means vector of the numerical builder (source lines 266-279):
the observations, plus the prior mean `(low + high)/2` appended when the
prior is considered — which is forced when there are no observations. -/
noncomputable def musOf (obs : List ℝ) (low high : ℝ) (p : PEParams) : List ℝ :=
  if p.consider_prior || decide (obs.length = 0) then obs ++ [(low + high) / 2]
  else obs

/-- The pre-clip sigmas (source lines 281-304): in multivariate mode all
components share the Scott-rule-style bandwidth
`0.2 * max(n,1)^(-1/(d+4)) * (high - low + (step or 0))` with `d` the
number of search-space parameters (lines 281-286); otherwise the
neighbor-gap heuristic. -/
noncomputable def rawSigmas (obs : List ℝ) (low high : ℝ) (step : Option ℝ)
    (p : PEParams) (nparams : ℕ) : List ℝ :=
  let step0 := step.getD 0
  if p.multivariate then
    (musOf obs low high p).map (fun _ => SIGMA0_MAGNITUDE
      * (max (obs.length : ℝ) 1) ^ (-1 / ((nparams : ℝ) + 4))
      * (high - low + step0))
  else
    neighborSigmas (musOf obs low high p) low high step0 p.consider_endpoints

/-- The clip lower bound (source lines 308-311): the magic clip
`maxsigma / min(100, 1 + len(mus))` when enabled, else `EPS`. -/
noncomputable def minsigmaDef (low high step0 : ℝ) (p : PEParams) (nmus : ℕ) : ℝ :=
  if p.consider_magic_clip then (high - low + step0) / min 100 (1 + (nmus : ℝ))
  else EPS

/-- The final sigmas (source lines 306-315): clip every raw sigma into
`[minsigma, maxsigma]` with `maxsigma = high - low + (step or 0)`
(line 307, 312; `np.clip(s, lo, hi) = min hi (max lo s)`), then force the
prior component's sigma — index `n_observations` — to `prior_sigma`
(lines 314-315). -/
noncomputable def sigmasOf (obs : List ℝ) (low high : ℝ) (step : Option ℝ)
    (p : PEParams) (nparams : ℕ) : List ℝ :=
  let step0 := step.getD 0
  let maxsigma := high - low + step0
  let minsigma := minsigmaDef low high step0 p (musOf obs low high p).length
  let clipped := (rawSigmas obs low high step p nparams).map
    (fun s => min maxsigma (max minsigma s))
  if p.consider_prior || decide (obs.length = 0) then
    clipped.set obs.length (high - low + step0)
  else clipped

/-- The `_calculate_numerical_distributions` method (source lines
250-332), assembled from `musOf`, `rawSigmas` and `sigmasOf` above: one
(discrete) truncated-normal component per mean, carrying the working
bounds and step broadcast over the components (lines 317-332). -/
noncomputable def calculate_numerical_distributions (obs : List ℝ)
    (low high : ℝ) (step : Option ℝ) (p : PEParams) (nparams : ℕ) :
    List TruncnormComponent :=
  ((musOf obs low high p).zip (sigmasOf obs low high step p nparams)).map
    (fun ms => ⟨ms.1, ms.2, low, high, step⟩)

/-- The sigma of component `i`. -/
noncomputable def sigmaAt (comps : List TruncnormComponent) (i : ℕ) : ℝ :=
  (comps.getD i ⟨0, 0, 0, 0, none⟩).sigma

/-- Length of the means vector. -/
theorem musOf_length (obs : List ℝ) (low high : ℝ) (p : PEParams) :
    (musOf obs low high p).length =
      if p.consider_prior || decide (obs.length = 0) then obs.length + 1
      else obs.length := by
  unfold musOf
  by_cases h : (p.consider_prior || decide (obs.length = 0)) = true
  · rw [if_pos h, if_pos h, List.length_append, List.length_singleton]
  · rw [if_neg h, if_neg h]

/-- The neighbor-gap heuristic returns one sigma per mean. -/
theorem neighborSigmas_length (mus : List ℝ) (low high step0 : ℝ) (ce : Bool) :
    (neighborSigmas mus low high step0 ce).length = mus.length := by
  unfold neighborSigmas
  rw [List.length_map, List.length_range]

/-- The raw sigmas match the means in number. -/
theorem rawSigmas_length (obs : List ℝ) (low high : ℝ) (step : Option ℝ)
    (p : PEParams) (nparams : ℕ) :
    (rawSigmas obs low high step p nparams).length
      = (musOf obs low high p).length := by
  unfold rawSigmas
  dsimp only
  by_cases h : p.multivariate = true
  · rw [if_pos h, List.length_map]
  · rw [if_neg h, neighborSigmas_length]

/-- The final sigmas match the means in number. -/
theorem sigmasOf_length (obs : List ℝ) (low high : ℝ) (step : Option ℝ)
    (p : PEParams) (nparams : ℕ) :
    (sigmasOf obs low high step p nparams).length
      = (musOf obs low high p).length := by
  unfold sigmasOf
  dsimp only
  by_cases h : (p.consider_prior || decide (obs.length = 0)) = true
  · rw [if_pos h, List.length_set, List.length_map, rawSigmas_length]
  · rw [if_neg h, List.length_map, rawSigmas_length]

/-- The `_calculate_categorical_distributions` method (source lines
221-248).  Observations are integer choice indices (`astype(int)`,
line 229); zero observations force the prior on (lines 234-235); each of
the two branches asserts a non-null `prior_weight` (lines 239 and 243), so
the assertion is checked whenever the method runs and is hoisted here;
the `(rows, k)` matrix is filled with `value` (lines 237-245), `1` is
added at `(i, observations[i])` for each observed row (line 246), and
each row is divided by its sum (line 247). -/
def calculate_categorical_distributions (observations : List ℕ) (nChoices : ℕ)
    (p : PEParams) : Except PyErr (List (List ℚ)) :=
  let n := observations.length
  let considerPrior := p.consider_prior || decide (n = 0)
  match p.prior_weight with
  | none => .error (.assertionError "prior_weight must not be None")
  | some pw =>
    let rows := if considerPrior then n + 1 else n
    let value : ℚ := if considerPrior then pw / ((n : ℚ) + 1) else pw / (n : ℚ)
    let mat := (List.range rows).map (fun i =>
      (List.range nChoices).map (fun j =>
        if i < n ∧ observations.getD i 0 = j then value + 1 else value))
    .ok (mat.map (fun row => row.map (fun x => x / row.sum)))

/-- Parameters of the `C8` concrete instance: prior considered,
`prior_weight = 1.0`. -/
def pC8 : PEParams :=
  { consider_prior := true
    prior_weight := some 1
    consider_magic_clip := true
    consider_endpoints := true
    weights := fun _ => []
    multivariate := false }

/-- C8: the categorical builder returns, for any observations and any
non-null prior weight, a row-normalized matrix with
`n_observations + 1` rows when the prior is considered (else
`n_observations`) and one column per choice (first conjunct); on the
claim's instance — three choices, one observation at index 1, prior
considered, prior weight 1 — the matrix is exactly
`[[1/5, 3/5, 1/5], [1/3, 1/3, 1/3]]` (second conjunct), whose observed
row sums to 1 with the observed column strictly greatest and whose prior
row is uniform. -/
theorem C8_categorical_builder :
    (∀ (obs : List ℕ) (k : ℕ) (p : PEParams) (pw : ℚ),
      p.prior_weight = some pw →
      ∃ mat, calculate_categorical_distributions obs k p = .ok mat ∧
        mat.length = (if p.consider_prior || decide (obs.length = 0)
          then obs.length + 1 else obs.length) ∧
        ∀ row ∈ mat, row.length = k)
    ∧ calculate_categorical_distributions [1] 3 pC8
        = .ok [[1/5, 3/5, 1/5], [1/3, 1/3, 1/3]]
    ∧ ((1:ℚ)/5 < 3/5 ∧ ((1:ℚ)/5 + 3/5 + 1/5 = 1) ∧ (1:ℚ)/3 + 1/3 + 1/3 = 1) := by
  refine ⟨?_, ?_, by norm_num, by norm_num, by norm_num⟩
  · intro obs k p pw hpw
    unfold calculate_categorical_distributions
    dsimp only
    rw [hpw]
    refine ⟨_, rfl, ?_, ?_⟩
    · rw [List.length_map, List.length_map, List.length_range]
    · intro row hrow
      obtain ⟨r0, hr0, hr0row⟩ := List.mem_map.mp hrow
      obtain ⟨i, hi, hir0⟩ := List.mem_map.mp hr0
      subst hr0row
      subst hir0
      rw [List.length_map, List.length_map, List.length_range]
  · unfold calculate_categorical_distributions
    norm_num [pC8, List.range_succ]

/-- Witness for the universally quantified conjunct of
`C8_categorical_builder`: two choices, one observation at index 0. -/
theorem C8_categorical_builder_witness :
    ∃ mat, calculate_categorical_distributions [0] 2 pC8 = .ok mat ∧
      mat.length = (if pC8.consider_prior || decide (([0] : List ℕ).length = 0)
        then ([0] : List ℕ).length + 1 else ([0] : List ℕ).length) ∧
      ∀ row ∈ mat, row.length = 2 :=
  C8_categorical_builder.1 [0] 2 pC8 1 rfl

/-- Parameters of the `C6` counterexample: the prior is not considered
and `prior_weight` is null. -/
def pC6cex : PEParams :=
  { consider_prior := false
    prior_weight := none
    consider_magic_clip := true
    consider_endpoints := true
    weights := fun _ => [Fl.num 1]
    multivariate := false }

/-- C6 is false as stated: with `consider_prior = false`,
`n_observations = 1 > 0` and `prior_weight` null, a search space
containing a categorical parameter does NOT construct without a
precondition failure — the categorical builder asserts
`prior_weight is not None` on its no-prior branch too (source line 243)
before computing `prior_weight / n`. -/
theorem C6_counterexample :
    pC6cex.consider_prior = false ∧ pC6cex.prior_weight = none ∧
    ([0] : List ℕ).length = 1 ∧
    calculate_categorical_distributions [0] 3 pC6cex
      = .error (.assertionError "prior_weight must not be None") :=
  ⟨rfl, rfl, rfl, rfl⟩

/-- C6 (amended): `prior_weight` is required to be non-null if the prior
is considered, if there are zero observations, or if the search space
contains a categorical parameter.  With `consider_prior = false` and
`n_observations > 0`, a null `prior_weight` is never touched by the
weight computation — predetermined weights always succeed (first
conjunct) and validated computed weights succeed (second conjunct) — and
the numerical builder's output does not depend on `prior_weight` at all
(third conjunct); the categorical builder instead fails its assertion for
every null `prior_weight` (fourth conjunct). -/
theorem C6_prior_weight_requirement :
    (∀ (l : List Fl) (n : ℕ) (p : PEParams), p.consider_prior = false → n ≠ 0 →
      ∃ ws, calculate_weights (some l) n p = .ok ws)
    ∧ (∀ (n : ℕ) (p : PEParams) (qs : List ℚ), p.consider_prior = false → n ≠ 0 →
        p.weights n = qs.map Fl.num → (∀ q ∈ qs.take n, 0 ≤ q) →
        (0 < n → 0 < (qs.take n).sum) →
        ∃ ws, calculate_weights none n p = .ok ws)
    ∧ (∀ (obs : List ℝ) (low high : ℝ) (step : Option ℝ) (p : PEParams)
        (nparams : ℕ) (pw2 : Option ℚ),
        calculate_numerical_distributions obs low high step p nparams
          = calculate_numerical_distributions obs low high step
              { p with prior_weight := pw2 } nparams)
    ∧ (∀ (obs : List ℕ) (k : ℕ) (p : PEParams), p.prior_weight = none →
        calculate_categorical_distributions obs k p
          = .error (.assertionError "prior_weight must not be None")) := by
  refine ⟨?_, ?_, ?_, ?_⟩
  · intro l n p hcp hn
    unfold calculate_weights
    dsimp only
    rw [if_neg (show ¬(p.consider_prior || decide (n = 0)) = true by
      rw [hcp, decide_eq_false hn]
      exact fun h => absurd h (by simp))]
    exact ⟨_, rfl⟩
  · intro n p qs hcp hn hw hnn hsum
    rw [calculate_weights_validated n p qs hw hnn hsum]
    rw [if_neg (show ¬(p.consider_prior || decide (n = 0)) = true by
      rw [hcp, decide_eq_false hn]
      exact fun h => absurd h (by simp))]
    exact ⟨_, rfl⟩
  · intro obs low high step p nparams pw2
    rfl
  · intro obs k p hpw
    unfold calculate_categorical_distributions
    dsimp only
    rw [hpw]

/-- Witness for `C6_prior_weight_requirement`: predetermined weights with
one observation and a null prior weight succeed. -/
theorem C6_prior_weight_requirement_witness :
    ∃ ws, calculate_weights (some [Fl.num 2]) 1 pC6cex = .ok ws :=
  C6_prior_weight_requirement.1 [Fl.num 2] 1 pC6cex rfl one_ne_zero

/-- C2: with `n_observations = 0` the estimator has exactly one mixture
component, the prior component, regardless of the configured
`consider_prior` (all conjuncts quantify over arbitrary parameters): the
weight vector is the single normalized prior weight `[1]` (first
conjunct, for both predetermined and computed weights), the numerical
builder returns exactly the prior component
`(prior_mu, prior_sigma, low, high[, step])` (second conjunct), and the
categorical builder returns the single uniform smoothed row (third
conjunct). -/
theorem C2_zero_obs_prior_component :
    (∀ (pd : Option (List Fl)) (p : PEParams) (pw : ℚ),
      p.prior_weight = some pw → 0 < pw →
      calculate_weights pd 0 p = .ok [Fl.num 1])
    ∧ (∀ (low high : ℝ) (step : Option ℝ) (p : PEParams) (nparams : ℕ),
        calculate_numerical_distributions [] low high step p nparams
          = [⟨(low + high) / 2, high - low + step.getD 0, low, high, step⟩])
    ∧ (∀ (k : ℕ) (p : PEParams) (pw : ℚ), p.prior_weight = some pw → pw ≠ 0 →
        0 < k →
        calculate_categorical_distributions [] k p
          = .ok [List.replicate k (1 / (k : ℚ))]) := by
  refine ⟨?_, ?_, ?_⟩
  · intro pd p pw hpw hpw0
    have hne : pw ≠ 0 := ne_of_gt hpw0
    have hself : pw / (pw + 0) = 1 := by
      rw [add_zero]
      exact div_self hne
    cases pd with
    | none =>
        unfold calculate_weights
        norm_num [hpw, Fl.sum, Fl.add, Fl.div, hne, hself]
    | some l =>
        unfold calculate_weights
        norm_num [hpw, Fl.sum, Fl.add, Fl.div, hne, hself]
  · intro low high step p nparams
    have hcp : (p.consider_prior || decide (([] : List ℝ).length = 0)) = true := by
      simp
    have hmus : musOf [] low high p = [(low + high) / 2] := by
      unfold musOf
      rw [if_pos hcp]
      rfl
    have hclip1 : ((rawSigmas [] low high step p nparams).map
        (fun s => min (high - low + step.getD 0)
          (max (minsigmaDef low high (step.getD 0) p
            (musOf [] low high p).length) s))).length = 1 := by
      rw [List.length_map, rawSigmas_length, hmus]
      rfl
    obtain ⟨a, ha⟩ := List.length_eq_one.mp hclip1
    have hsig : sigmasOf [] low high step p nparams
        = [high - low + step.getD 0] := by
      unfold sigmasOf
      dsimp only
      rw [if_pos hcp, ha]
      rfl
    unfold calculate_numerical_distributions
    rw [hmus, hsig]
    rfl
  · intro k p pw hpw hne hk
    have hkq : ((k : ℚ)) ≠ 0 := Nat.cast_ne_zero.mpr (Nat.pos_iff_ne_zero.mp hk)
    unfold calculate_categorical_distributions
    dsimp only
    rw [hpw]
    have h1 : List.range 1 = [0] := rfl
    simp only [List.length_nil, Nat.cast_zero, zero_add, decide_True, Bool.or_true,
      if_true, h1, List.map_cons, List.map_nil, lt_self_iff_false,
      false_and, if_false, div_one]
    have hrow : (List.range k).map (fun _ : ℕ => pw) = List.replicate k pw := by
      rw [List.map_const']
      rw [List.length_range]
    rw [hrow, List.sum_replicate, List.map_replicate]
    have hent : pw / (k • pw) = 1 / (k : ℚ) := by
      rw [nsmul_eq_mul, mul_comm, div_mul_eq_div_div, div_self hne]
    rw [hent]

/-- Parameters of the `C2` witness. -/
def pC2wit : PEParams :=
  { consider_prior := false
    prior_weight := some 2
    consider_magic_clip := true
    consider_endpoints := true
    weights := fun _ => [Fl.num 1]
    multivariate := false }

/-- Witness for `C2_zero_obs_prior_component`: even with
`consider_prior = false`, zero observations produce the single weight
`[1]`. -/
theorem C2_zero_obs_prior_component_witness :
    calculate_weights none 0 pC2wit = .ok [Fl.num 1] :=
  C2_zero_obs_prior_component.1 none pC2wit 2 rfl two_pos

/-- Helper for `C9`: for every non-prior component index, the stored
sigma is exactly the clip `min maxsigma (max minsigma raw_i)` applied by
source line 312 (the prior overwrite of line 315 only touches index
`n_observations`). -/
theorem sigmaAt_eq_clip (obs : List ℝ) (low high : ℝ) (step : Option ℝ)
    (p : PEParams) (nparams : ℕ) (i : ℕ) (hi : i < obs.length) :
    sigmaAt (calculate_numerical_distributions obs low high step p nparams) i
      = min (high - low + step.getD 0)
          (max (minsigmaDef low high (step.getD 0) p (musOf obs low high p).length)
            ((rawSigmas obs low high step p nparams).getD i 0)) := by
  have hmuslen : i < (musOf obs low high p).length := by
    rw [musOf_length]
    by_cases h : (p.consider_prior || decide (obs.length = 0)) = true
    · rw [if_pos h]
      omega
    · rw [if_neg h]
      omega
  have hsiglen : i < (sigmasOf obs low high step p nparams).length := by
    rw [sigmasOf_length]
    exact hmuslen
  have hrawlen : i < (rawSigmas obs low high step p nparams).length := by
    rw [rawSigmas_length]
    exact hmuslen
  have hsigAt : sigmaAt (calculate_numerical_distributions obs low high step p nparams) i
      = (sigmasOf obs low high step p nparams).getD i 0 := by
    unfold sigmaAt calculate_numerical_distributions
    have h1 : i < (((musOf obs low high p).zip
        (sigmasOf obs low high step p nparams)).map
        (fun ms => (⟨ms.1, ms.2, low, high, step⟩ : TruncnormComponent))).length := by
      rw [List.length_map, List.length_zip]
      exact lt_min hmuslen hsiglen
    rw [List.getD_eq_getElem _ _ h1, List.getElem_map, List.getElem_zip]
    rw [List.getD_eq_getElem _ _ hsiglen]
  rw [hsigAt]
  unfold sigmasOf
  dsimp only
  have hcliplen : i < ((rawSigmas obs low high step p nparams).map
      (fun s => min (high - low + step.getD 0)
        (max (minsigmaDef low high (step.getD 0) p
          (musOf obs low high p).length) s))).length := by
    rw [List.length_map, rawSigmas_length]
    exact hmuslen
  by_cases h : (p.consider_prior || decide (obs.length = 0)) = true
  · rw [if_pos h]
    have hset : i < (((rawSigmas obs low high step p nparams).map
        (fun s => min (high - low + step.getD 0)
          (max (minsigmaDef low high (step.getD 0) p
            (musOf obs low high p).length) s))).set obs.length
        (high - low + step.getD 0)).length := by
      rw [List.length_set]
      exact hcliplen
    rw [List.getD_eq_getElem _ _ hset,
      List.getElem_set_ne (show obs.length ≠ i by omega), List.getElem_map]
    rw [List.getD_eq_getElem _ _ hrawlen]
  · rw [if_neg h]
    rw [List.getD_eq_getElem _ _ hcliplen, List.getElem_map]
    rw [List.getD_eq_getElem _ _ hrawlen]

/-- Parameters of the `C9` concrete instance: prior off, magic clip on,
endpoints not considered, univariate mode. -/
def pC9 : PEParams :=
  { consider_prior := false
    prior_weight := some 1
    consider_magic_clip := true
    consider_endpoints := false
    weights := fun _ => []
    multivariate := false }

/-- C9: every non-prior sigma of the numerical builder is the clip
`min maxsigma (max minsigma raw_i)` of its raw estimate, with
`maxsigma = high - low + (step or 0)` and `minsigma` given by
`minsigmaDef` — `maxsigma / min(100, 1 + len(mus))` under
`consider_magic_clip`, else `1e-12` (first conjunct); under
`consider_magic_clip` with valid bounds the sigma therefore lies in
`[minsigma, maxsigma]` (second conjunct); and on the claim's instance —
`low = 0`, `high = 1`, no step, a single observation at `0.5`, prior not
considered, univariate — the builder returns one component with sigma
exactly `1/2` (third conjunct), which is at least `maxsigma / 2`
(fourth conjunct). -/
theorem C9_sigma_magic_clip :
    (∀ (obs : List ℝ) (low high : ℝ) (step : Option ℝ) (p : PEParams)
      (nparams : ℕ) (i : ℕ), i < obs.length →
      sigmaAt (calculate_numerical_distributions obs low high step p nparams) i
        = min (high - low + step.getD 0)
            (max (minsigmaDef low high (step.getD 0) p (musOf obs low high p).length)
              ((rawSigmas obs low high step p nparams).getD i 0)))
    ∧ (∀ (obs : List ℝ) (low high : ℝ) (step : Option ℝ) (p : PEParams)
        (nparams : ℕ) (i : ℕ), i < obs.length →
        p.consider_magic_clip = true → low ≤ high → 0 ≤ step.getD 0 →
        minsigmaDef low high (step.getD 0) p (musOf obs low high p).length
            ≤ sigmaAt (calculate_numerical_distributions obs low high step p nparams) i
        ∧ sigmaAt (calculate_numerical_distributions obs low high step p nparams) i
            ≤ high - low + step.getD 0)
    ∧ calculate_numerical_distributions [(1:ℝ)/2] 0 1 none pC9 1
        = [⟨1/2, 1/2, 0, 1, none⟩]
    ∧ ((1:ℝ) - 0 + 0) / 2
        ≤ sigmaAt (calculate_numerical_distributions [(1:ℝ)/2] 0 1 none pC9 1) 0 := by
  have hcp : (pC9.consider_prior || decide (([(1:ℝ)/2]).length = 0)) = false := rfl
  have hmus : musOf [(1:ℝ)/2] 0 1 pC9 = [1/2] := by
    unfold musOf
    simp only [hcp, Bool.false_eq_true, if_false]
  have hperm : argsortR [(1:ℝ)/2] = [0] := rfl
  have hns : neighborSigmas [(1:ℝ)/2] 0 1 0 false = [1/2] := by
    unfold neighborSigmas
    rw [hperm]
    dsimp only
    have h1 : List.range 1 = [0] := rfl
    have hidx : List.indexOf 0 ([0] : List ℕ) = 0 := rfl
    simp only [List.map_cons, List.map_nil, List.getD_cons_zero, List.getD_cons_succ,
      List.length_cons, List.length_nil, List.cons_append, List.nil_append, h1, hidx]
    norm_num [max_self]
  have hraw : rawSigmas [(1:ℝ)/2] 0 1 none pC9 1 = [1/2] := by
    unfold rawSigmas
    dsimp only
    rw [if_neg (show ¬pC9.multivariate = true by simp [pC9]), hmus]
    exact hns
  have hmin : minsigmaDef 0 1 ((none : Option ℝ).getD 0) pC9
      (musOf [(1:ℝ)/2] 0 1 pC9).length = 1/2 := by
    rw [hmus]
    unfold minsigmaDef
    rw [if_pos (show pC9.consider_magic_clip = true from rfl)]
    simp only [Option.getD_none, List.length_cons, List.length_nil]
    have h3 : (1:ℝ) + ((0 + 1 : ℕ) : ℝ) = 2 := by
      norm_num
    rw [h3, min_eq_right (by norm_num : (2:ℝ) ≤ 100)]
    norm_num
  have hsig : sigmasOf [(1:ℝ)/2] 0 1 none pC9 1 = [1/2] := by
    unfold sigmasOf
    dsimp only
    simp only [hcp, Bool.false_eq_true, if_false]
    rw [hraw]
    simp only [List.map_cons, List.map_nil]
    rw [hmin, max_self]
    have h2 : (1:ℝ) - 0 + (none : Option ℝ).getD 0 = 1 := by
      simp
    rw [h2, min_eq_right (by norm_num : (1:ℝ)/2 ≤ 1)]
  have hconc : calculate_numerical_distributions [(1:ℝ)/2] 0 1 none pC9 1
      = [⟨1/2, 1/2, 0, 1, none⟩] := by
    unfold calculate_numerical_distributions
    rw [hmus, hsig]
    rfl
  refine ⟨fun obs low high step p nparams i hi =>
    sigmaAt_eq_clip obs low high step p nparams i hi, ?_, hconc, ?_⟩
  · intro obs low high step p nparams i hi hmc hlh hs0
    rw [sigmaAt_eq_clip obs low high step p nparams i hi]
    have hmaxnn : (0:ℝ) ≤ high - low + step.getD 0 := by linarith
    have hminmax : minsigmaDef low high (step.getD 0) p (musOf obs low high p).length
        ≤ high - low + step.getD 0 := by
      unfold minsigmaDef
      rw [if_pos hmc]
      apply div_le_self hmaxnn
      refine le_min (by norm_num) ?_
      have h0 : (0:ℝ) ≤ ((musOf obs low high p).length : ℝ) := Nat.cast_nonneg _
      linarith
    exact ⟨le_min hminmax (le_max_left _ _), min_le_left _ _⟩
  · rw [show sigmaAt (calculate_numerical_distributions [(1:ℝ)/2] 0 1 none pC9 1) 0
        = (1:ℝ)/2 by rw [hconc]; rfl]
    norm_num

/-- Witness for `C9_sigma_magic_clip`: the magic-clip bounds hold on a
concrete single-observation instance. -/
theorem C9_sigma_magic_clip_witness :
    minsigmaDef 0 1 ((none : Option ℝ).getD 0) pC9
        (musOf [(0:ℝ)] 0 1 pC9).length
      ≤ sigmaAt (calculate_numerical_distributions [(0:ℝ)] 0 1 none pC9 1) 0
    ∧ sigmaAt (calculate_numerical_distributions [(0:ℝ)] 0 1 none pC9 1) 0
      ≤ 1 - 0 + (none : Option ℝ).getD 0 :=
  C9_sigma_magic_clip.2.1 [(0:ℝ)] 0 1 none pC9 1 0 (by norm_num) rfl
    (by norm_num) (by norm_num)
